import Mathlib

/-!
Verification of the OpenGE sort/dedup core against its specification.

This file gives a shallow embedding, in Lean 4, of the parts of the
OpenGE repository relevant to the checked claims:

* `src/bamtools/src/api/internal/bam/BamReader_p.cpp`
  (prefetch worker `prefetch_start`, `StopPrefetch`,
  `LoadNextAlignment`, `LoadNextAlignmentInternal`, `GetNextAlignment`,
  `GetReferenceID`),
* `src/openge/src/algorithms/read_sorter.cpp`
  (`ReadSorter::Run`, `GenerateSortedRuns`, `CreateSortedTempFile`,
  `WriteTempFile`, `MergeSortedRuns`, `SortedMergeElement::operator<`),
* `src/openge/src/util/fastq_writer.cpp`
  (`FastqWriter::SaveAlignment`, `FastqWriter::Close`, `compliment`).

Pure functions of the C++ source are translated into Lean functions;
stateful code is translated into explicit state passing.  The BamTools
comparator header `api/algorithms/Sort.h` and the constants header
`api/BamConstants.h` are not part of the given sources; the comparators
and constants are modelled from the specification (doc comments on the
corresponding definitions say so explicitly).
-/

/-! ## BamReaderPrivate::StopPrefetch (BamReader_p.cpp lines 610-619)

The C++ state relevant to the prefetch shutdown handshake:
`do_prefetch` is the flag polled by the worker, and we record whether
`pthread_join(prefetch_thread, NULL)` was executed with a `joined`
field of the model state. -/

/-- Thread-management state of a `BamReaderPrivate` with respect to its
prefetch worker: the `do_prefetch` flag and whether the worker thread
has been joined. -/
structure ReaderThreadState where
  do_prefetch : Bool
  joined : Bool
deriving DecidableEq, Repr

/-- Shallow embedding of `BamReaderPrivate::StopPrefetch` (lines
610-619): early-return when `do_prefetch` is already false; otherwise
clear `do_prefetch` and then execute
`if(do_prefetch && 0 != pthread_join(...))` — the guard re-reads
`do_prefetch` after it was cleared, so the branch decides whether the
join happens based on the just-cleared flag. -/
def StopPrefetch (s : ReaderThreadState) : ReaderThreadState :=
  if !s.do_prefetch then s
  else
    let s1 : ReaderThreadState := { s with do_prefetch := false }
    if s1.do_prefetch then { s1 with joined := true } else s1

/-! ## ReadSorter run/spill return-value plumbing (read_sorter.cpp)

The file-system outcome of opening one temp file for writing is an
oracle boolean (`openOK`); everything else follows the control flow of
the source.  `sort_retval` and `merge_retval` are data members of
`ReadSorter` that are never assigned in `read_sorter.cpp`; they enter
the model as parameters of `ReadSorterRun`. -/

/-- Shallow embedding of `ReadSorter::WriteTempFile` (lines 340-368 and
370-398): returns `false` iff `tempWriter.Open` fails (modelled by the
oracle `openOK`), and `true` after writing all records otherwise. -/
def WriteTempFile (openOK : Bool) : Bool :=
  if openOK = false then false else true

/-- Shallow embedding of `ReadSorter::TempFileWriteJob::runJob` (lines
179-200): sorts and writes the buffer on a pool thread; the success
flag of `WriteTempFile` is only printed, never returned (the job
returns `void`). -/
def TempFileWriteJobRun (openOK : Bool) : Unit :=
  let _success := WriteTempFile openOK
  ()

/-- Shallow embedding of `ReadSorter::CreateSortedTempFile` (lines
202-238): in the no-threads path `success` is the result of
`WriteTempFile`; in the threaded path the write is deferred to a
`TempFileWriteJob` (whose result is dropped) and `success` stays
`true`. -/
def CreateSortedTempFile (nothreads : Bool) (openOK : Bool) : Bool :=
  if nothreads then WriteTempFile openOK
  else
    let _job := TempFileWriteJobRun openOK
    true

/-- Shallow embedding of the return-value behaviour of
`ReadSorter::GenerateSortedRuns` (lines 87-172): one
`CreateSortedTempFile` call per spilled run (its result is discarded at
every call site, lines 124, 151, 162), and the function returns `true`
unconditionally (line 171). `openOKs` lists the open-outcome of each
run's temp file in spill order. -/
def GenerateSortedRuns (nothreads : Bool) (openOKs : List Bool) : Bool :=
  let _results := openOKs.map (fun ok => CreateSortedTempFile nothreads ok)
  true

/-- Shallow embedding of the return value of `ReadSorter::RunSort`
(lines 313-321): `MergeSortedRuns` (which returns `true`, line 310) if
`GenerateSortedRuns` succeeded, else `false`. -/
def RunSortRetval (nothreads : Bool) (openOKs : List Bool) : Bool :=
  if GenerateSortedRuns nothreads openOKs then true else false

/-- Shallow embedding of `ReadSorter::Run` (lines 62-84): calls
`RunSort()` discarding its result (line 76) and returns
`sort_retval && merge_retval` (line 83), two members that
`read_sorter.cpp` never assigns. -/
def ReadSorterRun (sort_retval merge_retval : Bool)
    (nothreads : Bool) (openOKs : List Bool) : Bool :=
  let _runsort := RunSortRetval nothreads openOKs
  sort_retval && merge_retval

/-! ## BamReaderPrivate::GetReferenceID (BamReader_p.cpp lines 288-302) -/

/-- One entry of the reference list (`RefData` of BamTools): a name and
a sequence length. -/
structure RefData where
  RefName : String
  RefLength : Int
deriving DecidableEq, Repr

/-- `distance(begin, find(begin, end, x))` of C++: index of the first
occurrence of `x`, or the length of the list when `x` is absent. -/
def findIndex (names : List String) (x : String) : Nat :=
  match names with
  | [] => 0
  | y :: ys => if y = x then 0 else findIndex ys x + 1

/-- Shallow embedding of `BamReaderPrivate::GetReferenceID` (lines
288-302): collect the reference names, take the index of the first
occurrence of `refName` via `find`/`distance`, and return `-1` when
that index equals the size of the reference list. -/
def GetReferenceID (refs : List RefData) (refName : String) : Int :=
  let refNames := refs.map (fun r => r.RefName)
  let index := findIndex refNames refName
  if index = refs.length then -1 else (index : Int)

/-! ## BamReaderPrivate::LoadNextAlignmentInternal
(BamReader_p.cpp lines 356-446)

The BGZF device is modelled as the byte sequence it still has to
deliver: `m_stream.Read(buf, n)` hands over `min n available` bytes and
returns that count.  Byte values are `Nat`s below 256.  The host is
taken little-endian (`m_isBigEndian = false`, constructor line 93); on
a big-endian host the explicit `SwapEndian_32` calls restore the same
decoded values, so the decoded fields are host-independent. -/

/-- The byte-stream device under the reader: the bytes not yet
consumed. -/
structure BgzfStream where
  data : List Nat
deriving DecidableEq, Repr

/-- `m_stream.Read(buffer, n)`: the bytes delivered (at most `n`) and
the stream afterwards.  The C++ call returns the number of delivered
bytes, i.e. the length of the first component. -/
def streamRead (s : BgzfStream) (n : Nat) : List Nat × BgzfStream :=
  (s.data.take n, ⟨s.data.drop n⟩)

/-- `BamTools::UnpackUnsignedInt` on a little-endian host: decode the
first four bytes of `bs` as an unsigned 32-bit little-endian integer
(absent bytes act as the unspecified leftover buffer contents of the
C++ code, fixed at 0 here). -/
def unpackUnsignedInt (bs : List Nat) : Nat :=
  bs.getD 0 0 + 256 * bs.getD 1 0 + 65536 * bs.getD 2 0 + 16777216 * bs.getD 3 0

/-- `BamTools::UnpackSignedInt`: the same 32 bits read as a two's
complement signed integer. -/
def unpackSignedInt (bs : List Nat) : Int :=
  let v := unpackUnsignedInt bs
  if v < 2147483648 then (v : Int) else (v : Int) - 4294967296

/-- `Constants::BAM_CORE_SIZE`.  Modelled from the spec:
`api/BamConstants.h` is not among the sources; spec section 3 fixes
`BAM_CORE_SIZE (32)`. -/
def BAM_CORE_SIZE : Nat := 32

/-- `Constants::BAM_CIGAR_LOOKUP`.  Modelled from the spec:
`api/BamConstants.h` is not among the sources; spec section 6 gives
`op = "MIDNSHP=X"[word & 0xF]`. -/
def BAM_CIGAR_LOOKUP : List Char := ['M', 'I', 'D', 'N', 'S', 'H', 'P', '=', 'X']

/-- One decoded CIGAR operation (`CigarOp` of BamTools): a length and
an operation character (the C++ field `Type`, renamed `OpType` because
`Type` is a Lean keyword). -/
structure CigarOp where
  Length : Nat
  OpType : Char
deriving DecidableEq, Repr

/-- The fields `LoadNextAlignmentInternal` fills in: the core fields of
`BamAlignment` plus its `BamAlignmentSupportData`. -/
structure BamAlignmentModel where
  RefID : Int
  Position : Int
  Bin : Nat
  MapQuality : Nat
  AlignmentFlag : Nat
  MateRefID : Int
  MatePosition : Int
  InsertSize : Int
  CigarData : List CigarOp
  BlockLength : Nat
  QueryNameLength : Nat
  QuerySequenceLength : Nat
  NumCigarOperations : Nat
  AllCharData : List Nat
deriving DecidableEq, Repr

/-- The `for` loop of lines 421-433: parse `n` CIGAR words of the char
data starting at `cigarDataOffset`, with
`Length = word >> BAM_CIGAR_SHIFT` and
`Type = BAM_CIGAR_LOOKUP[word & BAM_CIGAR_MASK]` (shift 4, mask 0xF,
per spec section 6). -/
def parseCigar (charData : List Nat) (off : Nat) : Nat → List CigarOp
  | 0 => []
  | n + 1 =>
    let word := unpackUnsignedInt (charData.drop off)
    { Length := word / 16, OpType := BAM_CIGAR_LOOKUP.getD (word % 16) 'M' }
      :: parseCigar charData (off + 4) n

/-- Shallow embedding of `BamReaderPrivate::LoadNextAlignmentInternal`
(lines 356-446).  Returns the decoded alignment (or `none` on
EOF/zero-length/short read, the cases where the C++ returns `false`)
together with the stream afterwards.  The duplicated
`if ( SupportData.BlockLength == 0 )` of lines 366-367 parses as a
nested `if` with the same condition, hence collapses to a single
zero test.  `SupportData.BlockLength - BAM_CORE_SIZE` (line 403) is
32-bit unsigned arithmetic and is embedded as such. -/
def LoadNextAlignmentInternal (s : BgzfStream) :
    Option BamAlignmentModel × BgzfStream :=
  let (lenBuf, s1) := streamRead s 4
  if lenBuf.length = 0 then (none, s1)
  else
    let blockLength := unpackUnsignedInt lenBuf
    if blockLength = 0 then (none, s1)
    else
      let (x, s2) := streamRead s1 BAM_CORE_SIZE
      if x.length ≠ BAM_CORE_SIZE then (none, s2)
      else
        let tempValue8 := unpackUnsignedInt (x.drop 8)
        let tempValue12 := unpackUnsignedInt (x.drop 12)
        let queryNameLength := tempValue8 % 256
        let numCigarOperations := tempValue12 % 65536
        let dataLength := (blockLength + 4294967296 - BAM_CORE_SIZE) % 4294967296
        let (charData, s3) := streamRead s2 dataLength
        if charData.length ≠ dataLength then (none, s3)
        else
          (some
            { RefID := unpackSignedInt x
              Position := unpackSignedInt (x.drop 4)
              Bin := tempValue8 / 65536
              MapQuality := tempValue8 / 256 % 256
              AlignmentFlag := tempValue12 / 65536
              MateRefID := unpackSignedInt (x.drop 20)
              MatePosition := unpackSignedInt (x.drop 24)
              InsertSize := unpackSignedInt (x.drop 28)
              CigarData := parseCigar charData queryNameLength numCigarOperations
              BlockLength := blockLength
              QueryNameLength := queryNameLength
              QuerySequenceLength := unpackUnsignedInt (x.drop 16)
              NumCigarOperations := numCigarOperations
              AllCharData := charData }, s3)

/-! ## BamReaderPrivate::GetNextAlignment region filtering
(BamReader_p.cpp lines 175-226)

At this layer the stream is the list of alignments that successive
`LoadNextAlignment` calls would deliver, and the region machinery of
`BamRandomAccessController` enters through its observable pieces:
the `HasRegion`/`RegionHasAlignments` flags and the `AlignmentState`
classifier. -/

/-- `BamRandomAccessController::RegionState`. -/
inductive RegionState where
  | BeforeRegion
  | OverlapsRegion
  | AfterRegion
deriving DecidableEq, Repr

/-- The `while ( state != OverlapsRegion )` loop of lines 195-214,
entered with the freshly loaded alignment `a` and the remaining stream
`s`: classify `a`; stop with failure on `AfterRegion`, deliver `a` on
`OverlapsRegion`, and otherwise (`BeforeRegion`) load the next
alignment and repeat (failure when the stream is exhausted). -/
def gnaLoop {α : Type} (classify : α → RegionState) :
    α → List α → Option α × List α
  | a, s =>
    match classify a with
    | RegionState.AfterRegion => (none, s)
    | RegionState.OverlapsRegion => (some a, s)
    | RegionState.BeforeRegion =>
      match s with
      | [] => (none, [])
      | b :: rest => gnaLoop classify b rest

/-- Shallow embedding of the region-filtering
`BamReaderPrivate::GetNextAlignment` (lines 175-226): fail if the
stream is not open, fail if a region is set that has no alignments,
load the first alignment, and run the skip/emit/terminate loop. -/
def GetNextAlignment {α : Type} (isOpen hasRegion regionHasAlignments : Bool)
    (classify : α → RegionState) (s : List α) : Option α × List α :=
  if !isOpen then (none, s)
  else if hasRegion && !regionHasAlignments then (none, s)
  else
    match s with
    | [] => (none, [])
    | a :: rest => gnaLoop classify a rest

/-! ## Prefetch worker and prefetch transparency
(BamReader_p.cpp lines 39-85 and 318-354)

`prefetch_start` repeatedly calls `LoadNextAlignmentInternal`, pushes
each decoded record, pushes `NULL` on failure and exits.  The record
contents are abstracted to the sequence `recs` of records the stream
still holds (the equivalence is about which results come back, for the
same underlying decoder).  A consumer call that waits forever on the
queue (`while(prefetch_alignments.size() == 0) usleep(5000)` with the
worker already gone) produces no result at all, which the model writes
as `none` in the outer `Option`. -/

/-- The queue contents produced by a complete run of `prefetch_start`
(lines 39-85) over a stream holding `recs`: each record in order, then
the `NULL` end sentinel pushed when `LoadNextAlignmentInternal` fails,
after which the worker breaks out of its loop. -/
def prefetchWorkerQueue {α : Type} : List α → List (Option α)
  | [] => [none]
  | a :: rest => some a :: prefetchWorkerQueue rest

/-- `n` successive results of the prefetch branch of
`LoadNextAlignment` (lines 319-337): pop the front of the queue
(`some (some a)` a record, `some none` the end sentinel, i.e. a
`false` return).  When the queue is empty and the worker has
terminated, the 5 ms polling loop never exits: no result, written
`none`. -/
def prefetchPops {α : Type} : List (Option α) → Nat → List (Option (Option α))
  | _, 0 => []
  | [], n + 1 => none :: prefetchPops ([] : List (Option α)) n
  | x :: q, n + 1 => some x :: prefetchPops q n

/-- `n` successive results of the prefetch path of `LoadNextAlignment`
run against a stream holding `recs`. -/
def prefetchResults {α : Type} (recs : List α) (n : Nat) :
    List (Option (Option α)) :=
  prefetchPops (prefetchWorkerQueue recs) n

/-- One direct (`do_prefetch` false) `LoadNextAlignment` call, line
339: delegate to `LoadNextAlignmentInternal`; at EOF the internal load
keeps failing and the stream stays empty. -/
def directNext {α : Type} : List α → Option α × List α
  | [] => (none, [])
  | a :: rest => (some a, rest)

/-- `n` successive results of the direct (no-prefetch) path of
`LoadNextAlignment`. -/
def directResults {α : Type} (recs : List α) : Nat → List (Option α)
  | 0 => []
  | n + 1 =>
    let (r, rest) := directNext recs
    r :: directResults rest n

/-! ## Prefetch throttle (BamReader_p.cpp lines 47-82)

The lookahead queue is the list of indices of the records it currently
holds, oldest first (`prefetch_start` pushes record `n` at iteration
`n`; the consumer pops from the front).  Per iteration the model takes
from an environment:

* `pops n` — how many records the consumer popped since the previous
  iteration (removed from the front);
* `loadHigh n` — the outcome of `load > availableCores() / 2` when the
  iteration reads the load average;
* `waitHi n` / `waitLo n` — the queue depth observed when the
  respective `while(size > bound) usleep(20000)` loop exits (those
  loops exit only when the consumer has drained the queue to at most
  100 resp. 5000 entries, which the theorems take as hypotheses).

The `count % 300 == 0` test uses the iteration counter before the
`count++` of line 81, so iterations 0, 300, 600, ... consult the
throttle, each after having pushed its record. -/

/-- Exit state of a `while(prefetch_alignments.size() > bound)` wait:
the consumer removed records from the front until `target` remained
(no effect when the queue already holds at most `target`). -/
def waitDrop (q : List Nat) (target : Nat) : List Nat :=
  q.drop (q.length - target)

/-- The lookahead queue at the top of iteration `n` of the
`prefetch_start` loop (lines 47-82), for the given environment. -/
def prefetchQueue (pops : Nat → Nat) (loadHigh : Nat → Bool)
    (waitHi waitLo : Nat → Nat) : Nat → List Nat
  | 0 => []
  | n + 1 =>
    let q := (prefetchQueue pops loadHigh waitHi waitLo n).drop (pops n)
    let q1 := q ++ [n]
    if n % 300 = 0 then
      if loadHigh n && decide (q1.length > 400) then waitDrop q1 (waitHi n)
      else if q1.length > 20000 then waitDrop q1 (waitLo n)
      else q1
    else q1

/-- The queue depth right after iteration `n` pushed its record
(line 58), before any throttle wait of that iteration: the maximal
depth the queue reaches during iteration `n`. -/
def pushDepth (pops : Nat → Nat) (loadHigh : Nat → Bool)
    (waitHi waitLo : Nat → Nat) (n : Nat) : Nat :=
  ((prefetchQueue pops loadHigh waitHi waitLo n).drop (pops n)).length + 1

/-! ## ReadSorter merge phase (read_sorter.cpp lines 55-59, 241-311)

A temp-file reader is the list of records its `GetNextAlignment` calls
will deliver, in file order.  The `multiset<SortedMergeElement>` is a
list kept sorted by the element order, with `insert` placing a new
element after all elements not greater than it (the `upper_bound`
position used by `std::multiset::insert`) and `*begin()`/`erase(begin())`
taking the front. -/

/-- The record fields the sorter's comparators look at, plus the query
name needed to state name ordering (a `std::string`, embedded as its
character sequence). -/
structure SAlign where
  name : List Char
  refID : Int
  position : Int
  firstOfPair : Bool
deriving DecidableEq, Repr

/-- `Sort::ByPosition` of BamTools (`api/algorithms/Sort.h`, not among
the sources).  Modelled from the spec, section 4.2: lexicographic on
`(ref_id, position)` with the convention that `ref_id = -1` sorts
after all valid ref ids. -/
def byPositionLT (a b : SAlign) : Bool :=
  if a.refID = -1 then false
  else if b.refID = -1 then true
  else if a.refID ≠ b.refID then decide (a.refID < b.refID)
  else decide (a.position < b.position)

/-- `Sort::ByName` of BamTools (`api/algorithms/Sort.h`, not among the
sources).  Modelled from the spec, section 4.2: lexicographic on
`query_name`, then by the flags' first-in-pair bit to stabilize mate
ordering (the spec leaves the direction of the bit comparison open;
first-in-pair sorting first is chosen here, and no claim depends on
that choice). -/
def byNameLT (a b : SAlign) : Bool :=
  if a.name ≠ b.name then decide (a.name < b.name)
  else a.firstOfPair && !b.firstOfPair

/-- `ReadSorter::SortedMergeElement`: a record popped from one
temp-file reader, together with the index of that reader in the
`readers` vector. -/
structure SortedMergeElement where
  read : SAlign
  source : Nat
deriving DecidableEq, Repr

/-- Shallow embedding of `ReadSorter::SortedMergeElement::operator<`
(lines 55-59): compare the two records with `Sort::ByPosition()`,
whatever comparator the sort was configured with. -/
def smeLT (x y : SortedMergeElement) : Bool :=
  byPositionLT x.read y.read

/-- `std::multiset::insert`: place `e` at the upper bound of its
equal range, i.e. after every element not greater than `e`. -/
def msInsert (e : SortedMergeElement) :
    List SortedMergeElement → List SortedMergeElement
  | [] => [e]
  | x :: xs => if smeLT e x then e :: x :: xs else x :: msInsert e xs

/-- Whether the claim-side order `lt` holds nowhere against adjacency:
`l` is nondecreasing for `lt`. -/
def sortedByBool {α : Type} (lt : α → α → Bool) : List α → Bool
  | [] => true
  | [_] => true
  | a :: b :: rest => !lt b a && sortedByBool lt (b :: rest)

/-- The seeding loop of `MergeSortedRuns` (lines 262-271): walk the
readers in index order (`ctr` starting at `idx`), pop one record from
each, skip drained readers (`continue`), insert the rest into the
multiset.  Returns the seeded multiset and the readers' remaining
contents. -/
def seedGo : List (List SAlign) → Nat → List SortedMergeElement →
    List SortedMergeElement × List (List SAlign)
  | [], _, pq => (pq, [])
  | run :: rest, idx, pq =>
    match run with
    | [] =>
      let (pq', rest') := seedGo rest (idx + 1) pq
      (pq', [] :: rest')
    | r :: rs =>
      let (pq', rest') := seedGo rest (idx + 1) (msInsert ⟨r, idx⟩ pq)
      (pq', rs :: rest')

/-- The steady-state loop of `MergeSortedRuns` (lines 275-289): while
the multiset is nonempty, pop its minimum (`*begin()`), emit its
record, refill from the same source, and reinsert unless that source
is drained.  `fuel` bounds the number of iterations; every call made
by `MergeSortedRuns` supplies fuel equal to the loop's termination
measure, which as the theorems show never runs out. -/
def mergeLoop : Nat → List SortedMergeElement → List (List SAlign) →
    List SAlign
  | 0, _, _ => []
  | _ + 1, [], _ => []
  | fuel + 1, el :: rest, sources =>
    match sources.getD el.source [] with
    | [] => el.read :: mergeLoop fuel rest sources
    | r :: rs =>
      el.read ::
        mergeLoop fuel (msInsert ⟨r, el.source⟩ rest)
          (sources.set el.source rs)

/-- Shallow embedding of `ReadSorter::MergeSortedRuns` (lines
241-311): seed one record per temp-file reader into the
`multiset<SortedMergeElement>`, then repeatedly emit the minimum and
refill from its source until the multiset is empty.  `runs` lists each
temp file's records in file order. -/
def MergeSortedRuns (runs : List (List SAlign)) : List SAlign :=
  let (pq, sources) := seedGo runs 0 []
  mergeLoop (pq.length + (sources.map List.length).sum) pq sources

/-! ## FastqWriter (fastq_writer.cpp lines 68-141)

The separate-files mode (`fwd_stream != rev_stream`, i.e. a filename
other than "stdout" was opened).  Strings of bases/qualities are lists
of characters; each output stream is the list of FASTQ records written
to it, a record being `(title, seq, qual)`.  `potential_pairs` is a
`std::map<string, fastq_record_t>`, embedded as an association list
kept sorted by key (the iteration order of `std::map`), with unique
keys. -/

/-- `fastq_record_t`: the buffered sequence and qualities of a read
whose mate has not arrived yet. -/
structure FastqRecordT where
  seq : List Char
  qual : List Char
deriving DecidableEq, Repr

/-- The data `FastqWriter::SaveAlignment` reads off a
`BamAlignment` after `BuildCharData()`: name, bases, qualities and the
reverse-strand flag. -/
structure FastqAlign where
  name : String
  queryBases : List Char
  qualities : List Char
  isReverseStrand : Bool
deriving DecidableEq, Repr

/-- The observable state of a `FastqWriter` in separate-files mode. -/
structure FastqState where
  potential_pairs : List (String × FastqRecordT)
  fwdOut : List (String × List Char × List Char)
  revOut : List (String × List Char × List Char)
  orphanOut : List (String × List Char × List Char)
deriving DecidableEq, Repr

/-- `std::map::find`: the record stored under key `k`, if any. -/
def fqFind (m : List (String × FastqRecordT)) (k : String) :
    Option FastqRecordT :=
  match m with
  | [] => none
  | (k', v) :: rest => if k' = k then some v else fqFind rest k

/-- `std::map::erase` of the entry found under key `k`. -/
def fqErase (m : List (String × FastqRecordT)) (k : String) :
    List (String × FastqRecordT) :=
  match m with
  | [] => []
  | (k', v) :: rest => if k' = k then rest else (k', v) :: fqErase rest k

/-- `potential_pairs[a.Name] = rec` for an absent key: insert keeping
the `std::map` key order. -/
def fqInsert (m : List (String × FastqRecordT)) (k : String)
    (v : FastqRecordT) : List (String × FastqRecordT) :=
  match m with
  | [] => [(k, v)]
  | (k', v') :: rest =>
    if k < k' then (k, v) :: (k', v') :: rest
    else (k', v') :: fqInsert rest k v

/-- Shallow embedding of the free function `compliment` (lines
84-99): complement the nucleotide letters handled by the `switch`,
leave every other character unchanged. -/
def complimentChar (c : Char) : Char :=
  match c with
  | 'A' => 'T'
  | 'C' => 'G'
  | 'G' => 'C'
  | 'T' => 'A'
  | 'a' => 't'
  | 'c' => 'g'
  | 'g' => 'c'
  | 't' => 'a'
  | _ => c

/-- `compliment` applied to a whole string (in-place per-character
mutation = map). -/
def compliment (s : List Char) : List Char :=
  s.map complimentChar

/-- Shallow embedding of `FastqWriter::SaveAlignment` (lines 101-141)
in separate-files mode: buffer the read when its name is new;
otherwise emit the `/1`-`/2` pair — the mate picked as reverse by
`a.IsReverseStrand()` gets its bases reversed and complemented and its
qualities reversed — and drop the buffered entry. -/
def FastqSaveAlignment (st : FastqState) (a : FastqAlign) : FastqState :=
  match fqFind st.potential_pairs a.name with
  | none =>
    { st with
      potential_pairs :=
        fqInsert st.potential_pairs a.name ⟨a.queryBases, a.qualities⟩ }
  | some buffered =>
    let fwdSeq := if a.isReverseStrand then buffered.seq else a.queryBases
    let fwdQual := if a.isReverseStrand then buffered.qual else a.qualities
    let revSeq := if a.isReverseStrand then a.queryBases else buffered.seq
    let revQual := if a.isReverseStrand then a.qualities else buffered.qual
    { st with
      fwdOut := st.fwdOut ++ [(a.name ++ "/1", fwdSeq, fwdQual)],
      revOut := st.revOut ++ [(a.name ++ "/2", compliment revSeq.reverse,
                               revQual.reverse)],
      potential_pairs := fqErase st.potential_pairs a.name }

/-- Shallow embedding of `FastqWriter::Close` (lines 68-82): write
every still-buffered read to the orphan stream (in `std::map`
iteration order) and close the files; the map itself is not cleared by
the source. -/
def FastqClose (st : FastqState) : FastqState :=
  { st with
    orphanOut :=
      st.orphanOut ++
        st.potential_pairs.map (fun kv => (kv.1, kv.2.seq, kv.2.qual)) }

/-- A fresh writer right after `Open` succeeded on separate files. -/
def fastqInitState : FastqState :=
  { potential_pairs := [], fwdOut := [], revOut := [], orphanOut := [] }

/-- A whole session: `SaveAlignment` on each input in order. -/
def fastqProcessAll (st : FastqState) (as : List FastqAlign) : FastqState :=
  as.foldl FastqSaveAlignment st

/-- Verification-side predicate: `q` is the contiguous block of record
indices ending just before `total` minus however many the consumer
already popped — i.e. the lookahead queue holds consecutive records in
file order. -/
def contigBlock (q : List Nat) (total : Nat) : Prop :=
  q = List.range' (total - q.length) q.length ∧ q.length ≤ total

/-! ## Theorems -/

/-- C2.  The claim is that `StopPrefetch` synchronously joins the
worker: "when StopPrefetch returns, do_prefetch is false and the worker
thread has been joined (the pthread_join call is executed whenever a
worker was running)".  The code clears `do_prefetch` (line 615) and
then guards the join with `if(do_prefetch && ...)` (line 617), which
re-reads the just-cleared flag: the `pthread_join` call is unreachable.
This theorem shows that after `StopPrefetch` the flag is always false
but the joined-state is whatever it was before — in particular, for a
running worker (`do_prefetch = true`, `joined = false`) the worker is
never joined. -/
theorem stopPrefetch_clears_flag_but_never_joins :
    ∀ s : ReaderThreadState,
      (StopPrefetch s).do_prefetch = false ∧ (StopPrefetch s).joined = s.joined := by
  intro s
  cases s with
  | mk dp j => cases dp <;> simp [StopPrefetch]

/-- C3.  The claim is that a failed spill (`WriteTempFile` returning
`false`) makes `ReadSorter::Run` return `false`.  In the code the
result of `CreateSortedTempFile` is discarded at every call site,
`GenerateSortedRuns` returns `true` unconditionally, `Run` discards
`RunSort()`'s value and returns `sort_retval && merge_retval`, members
`read_sorter.cpp` never assigns: `Run`'s result is a constant function
of the spill outcomes.  The second conjunct evaluates the model at the
failing input: a single run whose temp file cannot be opened, with the
retval members at `true`; `Run` still reports success. -/
theorem readSorterRun_ignores_spill_failures :
    (∀ (sort_retval merge_retval nothreads : Bool) (openOKs : List Bool),
        ReadSorterRun sort_retval merge_retval nothreads openOKs
          = (sort_retval && merge_retval))
    ∧ WriteTempFile false = false
    ∧ ReadSorterRun true true true [false] = true := by
  refine ⟨fun _ _ _ _ => rfl, rfl, rfl⟩

/-- `findIndex` returns `i` when position `i` holds the first
occurrence of `x`. -/
theorem findIndex_eq_of_first :
    ∀ (names : List String) (x : String) (i : Nat),
      i < names.length → names.getD i "" = x →
      (∀ j, j < i → names.getD j "" ≠ x) → findIndex names x = i := by
  intro names
  induction names with
  | nil => intro x i hi _ _; simp at hi
  | cons y ys ih =>
    intro x i hi hx hfirst
    cases i with
    | zero =>
      simp only [List.getD_cons_zero] at hx
      simp [findIndex, hx]
    | succ k =>
      have hy : y ≠ x := by
        have := hfirst 0 (Nat.succ_pos k)
        simpa using this
      simp only [findIndex, if_neg hy]
      have : findIndex ys x = k := by
        apply ih x k
        · simpa using hi
        · simpa using hx
        · intro j hj
          have := hfirst (j + 1) (by omega)
          simpa using this
      omega

/-- `findIndex` returns the list length when `x` occurs nowhere. -/
theorem findIndex_eq_length_of_not_mem :
    ∀ (names : List String) (x : String),
      (∀ i, i < names.length → names.getD i "" ≠ x) →
      findIndex names x = names.length := by
  intro names
  induction names with
  | nil => intro x _; rfl
  | cons y ys ih =>
    intro x h
    have hy : y ≠ x := by
      have := h 0 (by simp)
      simpa using this
    simp only [findIndex, if_neg hy, List.length_cons]
    have : findIndex ys x = ys.length := by
      apply ih x
      intro i hi
      have := h (i + 1) (by simpa using Nat.succ_lt_succ hi)
      simpa using this
    omega

/-- C9.  `GetReferenceID` returns the zero-based index of the first
reference whose name equals the query — lines 299-301 take
`distance(begin, find(...))` — and returns `-1`, not the list's size,
when no reference has that name (line 300, which corrects the stale
doc comment on line 288). -/
theorem getReferenceID_first_index_or_minus_one :
    (∀ (refs : List RefData) (name : String) (i : Nat),
        i < refs.length →
        (refs.map (fun r => r.RefName)).getD i "" = name →
        (∀ j, j < i → (refs.map (fun r => r.RefName)).getD j "" ≠ name) →
        GetReferenceID refs name = (i : Int))
    ∧ (∀ (refs : List RefData) (name : String),
        (∀ i, i < refs.length →
          (refs.map (fun r => r.RefName)).getD i "" ≠ name) →
        GetReferenceID refs name = -1) := by
  constructor
  · intro refs name i hi hx hfirst
    have hlen : (refs.map (fun r => r.RefName)).length = refs.length := by
      simp
    have hidx : findIndex (refs.map (fun r => r.RefName)) name = i :=
      findIndex_eq_of_first _ name i (by omega) hx (fun j hj => hfirst j hj)
    unfold GetReferenceID
    simp only [hidx]
    rw [if_neg (by omega)]
  · intro refs name h
    have hlen : (refs.map (fun r => r.RefName)).length = refs.length := by
      simp
    have hidx : findIndex (refs.map (fun r => r.RefName)) name = refs.length := by
      rw [findIndex_eq_length_of_not_mem _ name (fun i hi => h i (by omega)), hlen]
    unfold GetReferenceID
    simp [hidx]

/-- Witness for C9 at a concrete reference list: "chr2" is found at
index 1; "chrX" yields -1. -/
theorem getReferenceID_first_index_or_minus_one_witness :
    GetReferenceID [⟨"chr1", 100⟩, ⟨"chr2", 50⟩] "chr2" = 1 ∧
    GetReferenceID [⟨"chr1", 100⟩, ⟨"chr2", 50⟩] "chrX" = -1 :=
  ⟨getReferenceID_first_index_or_minus_one.1 [⟨"chr1", 100⟩, ⟨"chr2", 50⟩]
      "chr2" 1 (by decide) (by decide) (by decide),
    getReferenceID_first_index_or_minus_one.2 [⟨"chr1", 100⟩, ⟨"chr2", 50⟩]
      "chrX" (by decide)⟩

/-- C6.  Reading zero bytes in place of the 4-byte `block_length`
(EOF, line 361) makes `LoadNextAlignmentInternal` return `false` with
the stream untouched and no error raised, and a decoded `block_length`
of zero (the collapsed duplicated test of lines 366-368) makes it
return `false` with exactly those four bytes consumed and no further
bytes of the record read. -/
theorem loadNextAlignmentInternal_eof_and_zero_block (s : BgzfStream) :
    (s.data = [] → LoadNextAlignmentInternal s = (none, s)) ∧
    (4 ≤ s.data.length → unpackUnsignedInt (s.data.take 4) = 0 →
      LoadNextAlignmentInternal s = (none, ⟨s.data.drop 4⟩)) := by
  obtain ⟨d⟩ := s
  constructor
  · intro h
    subst h
    rfl
  · intro hlen hzero
    have hd : 4 ≤ d.length := hlen
    have hz : unpackUnsignedInt (d.take 4) = 0 := hzero
    have h4 : (List.take 4 d).length = 4 := by
      simp [List.length_take]
      omega
    simp [LoadNextAlignmentInternal, streamRead, h4, hz]

/-- Witness for C6: an empty stream fails in place; a stream whose
next record announces `block_length = 0` fails having consumed exactly
the four length bytes (the trailing byte 9 is left unread). -/
theorem loadNextAlignmentInternal_eof_and_zero_block_witness :
    LoadNextAlignmentInternal ⟨[]⟩ = (none, ⟨[]⟩) ∧
    LoadNextAlignmentInternal ⟨[0, 0, 0, 0, 9]⟩ = (none, ⟨[9]⟩) :=
  ⟨(loadNextAlignmentInternal_eof_and_zero_block ⟨[]⟩).1 rfl,
    (loadNextAlignmentInternal_eof_and_zero_block ⟨[0, 0, 0, 0, 9]⟩).2
      (by decide) (by decide)⟩

/-- The `while` loop of `GetNextAlignment` consumes any run of
`BeforeRegion` records in front of the stream. -/
theorem gnaLoop_skips_before {α : Type} (classify : α → RegionState) :
    ∀ (before : List α) (x a : α) (rest : List α),
      (∀ b ∈ before, classify b = RegionState.BeforeRegion) →
      classify x = RegionState.BeforeRegion →
      gnaLoop classify x (before ++ a :: rest) = gnaLoop classify a rest := by
  intro before
  induction before with
  | nil =>
    intro x a rest _ hx
    simp [gnaLoop, hx]
  | cons b bs ih =>
    intro x a rest hb hx
    have hstep : gnaLoop classify x ((b :: bs) ++ a :: rest)
        = gnaLoop classify b (bs ++ a :: rest) := by
      simp [gnaLoop, hx]
    rw [hstep, ih b a rest (fun c hc => hb c (by simp [hc])) (hb b (by simp))]

/-- C7.  With a region set (and known nonempty), `GetNextAlignment`
skips every `BeforeRegion` record, returns the first record that is
not `BeforeRegion` when it classifies `OverlapsRegion`, and returns
failure as soon as a record classifies `AfterRegion`, in both cases
without reading past that record (the remaining stream is exactly what
follows it). -/
theorem getNextAlignment_region_filter {α : Type} (classify : α → RegionState)
    (before : List α) (a : α) (rest : List α)
    (hbefore : ∀ b ∈ before, classify b = RegionState.BeforeRegion) :
    (classify a = RegionState.OverlapsRegion →
      GetNextAlignment true true true classify (before ++ a :: rest)
        = (some a, rest)) ∧
    (classify a = RegionState.AfterRegion →
      GetNextAlignment true true true classify (before ++ a :: rest)
        = (none, rest)) := by
  have hred : GetNextAlignment true true true classify (before ++ a :: rest)
      = gnaLoop classify a rest := by
    cases before with
    | nil => simp [GetNextAlignment]
    | cons b bs =>
      have hb := hbefore b (by simp)
      have hrest : ∀ c ∈ bs, classify c = RegionState.BeforeRegion :=
        fun c hc => hbefore c (by simp [hc])
      simp only [GetNextAlignment, Bool.not_true, Bool.and_false, List.cons_append]
      simpa using gnaLoop_skips_before classify bs b a rest hrest hb
  constructor
  · intro h
    rw [hred]
    cases rest <;> simp [gnaLoop, h]
  · intro h
    rw [hred]
    cases rest <;> simp [gnaLoop, h]

/-- Witness for C7: records 1 and 2 lie before the region, record 5
overlaps it; the reader skips 1 and 2, emits 5 and leaves 9 unread. -/
theorem getNextAlignment_region_filter_witness :
    GetNextAlignment true true true
      (fun n : Nat =>
        if n < 5 then RegionState.BeforeRegion
        else if n = 5 then RegionState.OverlapsRegion
        else RegionState.AfterRegion)
      ([1, 2] ++ 5 :: [9]) = (some 5, [9]) :=
  (getNextAlignment_region_filter _ [1, 2] 5 [9] (by decide)).1 (by decide)

/-- C8, counterexample.  The claim includes calls past the
end-of-stream result: there the two paths differ.  On an empty stream,
two direct calls return failure twice (`LoadNextAlignmentInternal`
keeps reporting EOF), while the prefetch path returns failure once (the
queued `NULL` sentinel) and then waits forever on an empty queue whose
worker has exited — the second call never produces a result. -/
theorem prefetch_transparency_counterexample :
    prefetchResults ([] : List Nat) 2
      ≠ (directResults ([] : List Nat) 2).map some := by
  decide

/-- C8, amended.  Up to and including the end-of-stream result — i.e.
for every call count `n ≤ |recs| + 1` — the prefetch path returns
exactly the results of the direct path: the worker enqueues the
records in order followed by the `NULL` sentinel, and the consumer
pops them in order. -/
theorem prefetch_transparency_until_eof {α : Type} :
    ∀ (recs : List α) (n : Nat), n ≤ recs.length + 1 →
      prefetchResults recs n = (directResults recs n).map some := by
  intro recs
  induction recs with
  | nil =>
    intro n hn
    match n, hn with
    | 0, _ => rfl
    | 1, _ => rfl
  | cons a rest ih =>
    intro n hn
    cases n with
    | zero => rfl
    | succ m =>
      have hL : prefetchResults (a :: rest) (m + 1)
          = some (some a) :: prefetchResults rest m := rfl
      have hR : (directResults (a :: rest) (m + 1)).map some
          = some (some a) :: (directResults rest m).map some := rfl
      have hm : m ≤ rest.length + 1 := by
        simp only [List.length_cons] at hn
        omega
      rw [hL, hR, ih m hm]

/-- Witness for C8, amended: three calls over a two-record stream
agree between the two paths. -/
theorem prefetch_transparency_until_eof_witness :
    prefetchResults ([10, 20] : List Nat) 3
      = (directResults ([10, 20] : List Nat) 3).map some :=
  prefetch_transparency_until_eof [10, 20] 3 (by decide)

/-- Inserting a fresh key into the pair map grows it by one entry. -/
theorem fqInsert_length :
    ∀ (m : List (String × FastqRecordT)) (k : String) (v : FastqRecordT),
      (fqInsert m k v).length = m.length + 1 := by
  intro m k v
  induction m with
  | nil => rfl
  | cons kv rest ih =>
    obtain ⟨k', v'⟩ := kv
    by_cases h : k < k' <;> simp [fqInsert, h, ih]

/-- Erasing a key that `find` locates shrinks the pair map by one
entry. -/
theorem fqErase_length :
    ∀ (m : List (String × FastqRecordT)) (k : String),
      (fqFind m k).isSome = true → (fqErase m k).length + 1 = m.length := by
  intro m k
  induction m with
  | nil => intro h; simp [fqFind] at h
  | cons kv rest ih =>
    obtain ⟨k', v'⟩ := kv
    by_cases h : k' = k
    · intro _
      simp [fqErase, h]
    · intro hf
      simp only [fqFind, if_neg h] at hf
      simp only [fqErase, if_neg h, List.length_cons]
      rw [ih hf]

/-- One `SaveAlignment` call adds exactly one read to the combined
count of pair halves written and reads buffered, and never touches the
orphan stream. -/
theorem fastqSave_count (st : FastqState) (a : FastqAlign) :
    (FastqSaveAlignment st a).fwdOut.length
        + (FastqSaveAlignment st a).revOut.length
        + (FastqSaveAlignment st a).potential_pairs.length
      = st.fwdOut.length + st.revOut.length + st.potential_pairs.length + 1
    ∧ (FastqSaveAlignment st a).orphanOut = st.orphanOut := by
  unfold FastqSaveAlignment
  cases hf : fqFind st.potential_pairs a.name with
  | none =>
    refine ⟨?_, rfl⟩
    simp [fqInsert_length]
    omega
  | some buffered =>
    have hlen := fqErase_length st.potential_pairs a.name (by simp [hf])
    constructor
    · simp only [List.length_append, List.length_cons, List.length_nil]
      omega
    · rfl

/-- Over a whole input list, pair-half writes plus still-buffered reads
grow by exactly the number of inputs, with no orphan writes. -/
theorem fastqProcessAll_count :
    ∀ (as : List FastqAlign) (st : FastqState),
      (fastqProcessAll st as).fwdOut.length
          + (fastqProcessAll st as).revOut.length
          + (fastqProcessAll st as).potential_pairs.length
        = st.fwdOut.length + st.revOut.length + st.potential_pairs.length
            + as.length
      ∧ (fastqProcessAll st as).orphanOut = st.orphanOut := by
  intro as
  induction as with
  | nil => intro st; exact ⟨rfl, rfl⟩
  | cons a rest ih =>
    intro st
    have hs := fastqSave_count st a
    have hr := ih (FastqSaveAlignment st a)
    have hstep : fastqProcessAll st (a :: rest)
        = fastqProcessAll (FastqSaveAlignment st a) rest := rfl
    rw [hstep]
    constructor
    · rw [hr.1, hs.1]
      simp [List.length_cons]
      omega
    · rw [hr.2, hs.2]

/-- C10.  In separate-files mode every alignment passed to
`SaveAlignment` is written exactly once: first conjunct, after `Close`
the records on the forward, reverse and orphan streams add up exactly
to the number of inputs (each input either became a pair half at its
mate's arrival or went to the orphan stream at `Close`, so nothing
buffered is lost); second conjunct, a name-matched pair is emitted as
`/1`-`/2` with the reverse-strand mate's bases reverse-complemented
and its qualities reversed. -/
theorem fastqWriter_writes_each_alignment_exactly_once :
    (∀ as : List FastqAlign,
        (FastqClose (fastqProcessAll fastqInitState as)).fwdOut.length
          + (FastqClose (fastqProcessAll fastqInitState as)).revOut.length
          + (FastqClose (fastqProcessAll fastqInitState as)).orphanOut.length
          = as.length)
    ∧ (∀ a1 a2 : FastqAlign, a2.name = a1.name → a2.isReverseStrand = true →
        FastqClose (fastqProcessAll fastqInitState [a1, a2])
          = { potential_pairs := [],
              fwdOut := [(a1.name ++ "/1", a1.queryBases, a1.qualities)],
              revOut := [(a1.name ++ "/2", compliment a2.queryBases.reverse,
                          a2.qualities.reverse)],
              orphanOut := [] }) := by
  constructor
  · intro as
    have h := fastqProcessAll_count as fastqInitState
    have h1 := h.1
    have e1 : fastqInitState.fwdOut.length = 0 := rfl
    have e2 : fastqInitState.revOut.length = 0 := rfl
    have e3 : fastqInitState.potential_pairs.length = 0 := rfl
    have e4 : fastqInitState.orphanOut = [] := rfl
    rw [e1, e2, e3] at h1
    unfold FastqClose
    simp only [List.length_append, List.length_map]
    rw [h.2, e4]
    simp only [List.length_nil]
    omega
  · intro a1 a2 hn hr
    obtain ⟨n1, b1, q1, r1⟩ := a1
    obtain ⟨n2, b2, q2, r2⟩ := a2
    have hn' : n2 = n1 := hn
    have hr' : r2 = true := hr
    subst hn'
    subst hr'
    simp [fastqProcessAll, FastqSaveAlignment, fqFind, fqInsert, fqErase,
      FastqClose, fastqInitState]

/-- One unfolding of the prefetch-worker iteration. -/
theorem prefetchQueue_succ (pops : Nat → Nat) (loadHigh : Nat → Bool)
    (waitHi waitLo : Nat → Nat) (m : Nat) :
    prefetchQueue pops loadHigh waitHi waitLo (m + 1)
      = (if m % 300 = 0 then
          (if loadHigh m &&
              decide (((prefetchQueue pops loadHigh waitHi waitLo m).drop
                (pops m) ++ [m]).length > 400)
            then waitDrop ((prefetchQueue pops loadHigh waitHi waitLo m).drop
                (pops m) ++ [m]) (waitHi m)
            else if ((prefetchQueue pops loadHigh waitHi waitLo m).drop
                (pops m) ++ [m]).length > 20000
              then waitDrop ((prefetchQueue pops loadHigh waitHi waitLo m).drop
                  (pops m) ++ [m]) (waitLo m)
              else (prefetchQueue pops loadHigh waitHi waitLo m).drop
                  (pops m) ++ [m])
        else (prefetchQueue pops loadHigh waitHi waitLo m).drop (pops m) ++ [m]) :=
  rfl

/-- A throttle wait never leaves more than its drain target in the
queue. -/
theorem waitDrop_length_le (q : List Nat) (t : Nat) :
    (waitDrop q t).length ≤ t := by
  simp only [waitDrop, List.length_drop]
  omega

/-- With an idle consumer and a low load average, the first 20100
iterations of the worker never enter a throttle wait, so the queue
grows by exactly one record per iteration. -/
theorem prefetchQueue_len_no_pops :
    ∀ n, n ≤ 20100 →
      (prefetchQueue (fun _ => 0) (fun _ => false) (fun _ => 0) (fun _ => 0)
        n).length = n := by
  intro n
  induction n with
  | zero => intro _; rfl
  | succ m ih =>
    intro hm
    have hml := ih (by omega)
    rw [prefetchQueue_succ]
    by_cases h3 : m % 300 = 0
    · have hbig : ¬ (20000 < m + 1) := by omega
      simp [h3, hml, hbig]
    · simp [h3, hml]

/-- C5, counterexample.  With no consumer pops and the high-load
condition never applying, iteration 20100 pushes the 20101st record
before its throttle check runs: the queue depth exceeds the claimed
20000 bound (by that check, every earlier check — at multiples of
300 up to 19800 — saw at most 19801 entries and did not wait). -/
theorem prefetch_queue_bound_counterexample :
    20000 < pushDepth (fun _ => 0) (fun _ => false) (fun _ => 0) (fun _ => 0)
      20100 := by
  have key : ∀ n, n ≤ 20100 →
      pushDepth (fun _ => 0) (fun _ => false) (fun _ => 0) (fun _ => 0) n
        = n + 1 := by
    intro n hn
    show ((prefetchQueue (fun _ => 0) (fun _ => false) (fun _ => 0)
      (fun _ => 0) n).drop 0).length + 1 = n + 1
    rw [List.drop_zero, prefetchQueue_len_no_pops n hn]
  rw [key 20100 (by omega)]
  omega

/-- The queue depth at the top of iteration `n` is at most
`20000 + (n + 299) % 300`: right after a throttle check it is at most
20000, and it grows by at most one per iteration until the next
check. -/
theorem prefetchQueue_len_bound (pops : Nat → Nat) (loadHigh : Nat → Bool)
    (waitHi waitLo : Nat → Nat)
    (hHi : ∀ i, waitHi i ≤ 100) (hLo : ∀ i, waitLo i ≤ 5000) :
    ∀ n, (prefetchQueue pops loadHigh waitHi waitLo n).length
      ≤ 20000 + (n + 299) % 300 := by
  intro n
  induction n with
  | zero =>
    simp [prefetchQueue]
  | succ m ih =>
    rw [prefetchQueue_succ]
    have hdrop : ((prefetchQueue pops loadHigh waitHi waitLo m).drop
        (pops m)).length ≤ (prefetchQueue pops loadHigh waitHi waitLo m).length := by
      simp only [List.length_drop]
      omega
    by_cases h3 : m % 300 = 0
    · rw [if_pos h3]
      by_cases hload : loadHigh m &&
          decide (((prefetchQueue pops loadHigh waitHi waitLo m).drop
            (pops m) ++ [m]).length > 400)
      · rw [if_pos hload]
        have h1 := waitDrop_length_le
          ((prefetchQueue pops loadHigh waitHi waitLo m).drop (pops m) ++ [m])
          (waitHi m)
        have h2 := hHi m
        omega
      · rw [if_neg hload]
        by_cases h20 : ((prefetchQueue pops loadHigh waitHi waitLo m).drop
            (pops m) ++ [m]).length > 20000
        · rw [if_pos h20]
          have h1 := waitDrop_length_le
            ((prefetchQueue pops loadHigh waitHi waitLo m).drop (pops m) ++ [m])
            (waitLo m)
          have h2 := hLo m
          omega
        · rw [if_neg h20]
          omega
    · rw [if_neg h3]
      simp only [List.length_append, List.length_cons, List.length_nil]
      simp only [List.length_drop]
      omega

/-- Dropping from the front of a contiguous block leaves a contiguous
block. -/
theorem range'_drop :
    ∀ (l s d : Nat), (List.range' s l).drop d = List.range' (s + d) (l - d) := by
  intro l
  induction l with
  | zero => intro s d; simp
  | succ m ih =>
    intro s d
    cases d with
    | zero => simp
    | succ e =>
      rw [List.range'_succ, List.drop_succ_cons, ih (s + 1) e]
      have h1 : s + 1 + e = s + (e + 1) := by omega
      have h2 : m - e = m + 1 - (e + 1) := by omega
      rw [h1, h2]

/-- Appending the next element to a contiguous block keeps it
contiguous. -/
theorem range'_snoc :
    ∀ (l s : Nat), List.range' s l ++ [s + l] = List.range' s (l + 1) := by
  intro l
  induction l with
  | zero => intro s; simp
  | succ m ih =>
    intro s
    rw [List.range'_succ, List.range'_succ, List.cons_append]
    have h1 : s + (m + 1) = (s + 1) + m := by omega
    rw [h1, ih (s + 1)]

/-- A front-drop of a block of records ending at record `total - 1`
again ends at record `total - 1`. -/
theorem range'_drop_contig (s l d total : Nat) (hs : s = total - l)
    (hl : l ≤ total) :
    (List.range' s l).drop d
      = List.range' (total - (l - d)) (l - d) := by
  rw [range'_drop]
  by_cases hd : d ≤ l
  · have : s + d = total - (l - d) := by omega
    rw [this]
  · have h0 : l - d = 0 := by omega
    simp [h0]

/-- The empty queue is a (trivial) contiguous block. -/
theorem contigBlock_nil (total : Nat) : contigBlock [] total := by
  constructor
  · simp
  · exact Nat.zero_le _

/-- Popping records off the front of a contiguous block leaves a
contiguous block with the same upper end. -/
theorem contigBlock_drop (q : List Nat) (total d : Nat)
    (h : contigBlock q total) : contigBlock (q.drop d) total := by
  obtain ⟨h1, h2⟩ := h
  have hdl : (q.drop d).length = q.length - d := by
    simp
  constructor
  · conv_lhs => rw [h1]
    rw [range'_drop_contig (total - q.length) q.length d total rfl h2, hdl]
  · omega

/-- Pushing the next record at the back of a contiguous block ending
at `m` gives a contiguous block ending at `m + 1`. -/
theorem contigBlock_snoc (q : List Nat) (m : Nat) (h : contigBlock q m) :
    contigBlock (q ++ [m]) (m + 1) := by
  obtain ⟨h1, h2⟩ := h
  have hl : (q ++ [m]).length = q.length + 1 := by
    simp
  constructor
  · rw [hl]
    have hstart : (m + 1) - (q.length + 1) = m - q.length := by omega
    rw [hstart]
    conv_lhs => rw [h1]
    have hm : (m - q.length) + q.length = m := by omega
    rw [show [m] = [(m - q.length) + q.length] from by rw [hm]]
    exact range'_snoc _ _
  · rw [hl]
    omega

/-- The lookahead queue always holds a contiguous run of records in
file order (the consumer pops from the front, the worker pushes each
next record at the back, and the throttle waits only drop from the
front), so the records leave the queue in file order. -/
theorem prefetchQueue_contiguous (pops : Nat → Nat) (loadHigh : Nat → Bool)
    (waitHi waitLo : Nat → Nat) :
    ∀ n, contigBlock (prefetchQueue pops loadHigh waitHi waitLo n) n := by
  intro n
  induction n with
  | zero => exact contigBlock_nil 0
  | succ m ih =>
    have h1 : contigBlock
        ((prefetchQueue pops loadHigh waitHi waitLo m).drop (pops m) ++ [m])
        (m + 1) :=
      contigBlock_snoc _ m (contigBlock_drop _ m (pops m) ih)
    rw [prefetchQueue_succ]
    by_cases h3 : m % 300 = 0
    · rw [if_pos h3]
      by_cases hload : loadHigh m &&
          decide (((prefetchQueue pops loadHigh waitHi waitLo m).drop
            (pops m) ++ [m]).length > 400)
      · rw [if_pos hload]
        exact contigBlock_drop _ _ _ h1
      · rw [if_neg hload]
        by_cases h20 : ((prefetchQueue pops loadHigh waitHi waitLo m).drop
            (pops m) ++ [m]).length > 20000
        · rw [if_pos h20]
          exact contigBlock_drop _ _ _ h1
        · rw [if_neg h20]
          exact h1
    · rw [if_neg h3]
      exact h1

/-- C5, amended.  The lookahead queue depth never exceeds
20000 + 300 = 20300: the throttle is consulted only every 300
iterations and only after the iteration's own push, so the depth can
overshoot the 20000 threshold by at most 300 before a check catches
it and (high load aside) blocks until the consumer has drained the
queue to at most 5000; and the queue always holds a contiguous
in-file-order block of records, so all records are still emitted in
file order.  The wait-exit hypotheses record the exit conditions of the
two `while(size > bound)` loops of lines 76 and 78. -/
theorem prefetch_queue_bound_amended (pops : Nat → Nat)
    (loadHigh : Nat → Bool) (waitHi waitLo : Nat → Nat)
    (hHi : ∀ i, waitHi i ≤ 100) (hLo : ∀ i, waitLo i ≤ 5000) :
    (∀ n, pushDepth pops loadHigh waitHi waitLo n ≤ 20300)
    ∧ (∀ n, ∃ k, prefetchQueue pops loadHigh waitHi waitLo n
        = List.range' k
            (prefetchQueue pops loadHigh waitHi waitLo n).length) := by
  constructor
  · intro n
    have hb := prefetchQueue_len_bound pops loadHigh waitHi waitLo hHi hLo n
    unfold pushDepth
    simp only [List.length_drop]
    omega
  · intro n
    exact ⟨n - (prefetchQueue pops loadHigh waitHi waitLo n).length,
      (prefetchQueue_contiguous pops loadHigh waitHi waitLo n).1⟩

/-- Witness for C5, amended, at an idle-consumer environment and
iteration 5. -/
theorem prefetch_queue_bound_amended_witness :
    pushDepth (fun _ => 0) (fun _ => false) (fun _ => 0) (fun _ => 0) 5 ≤ 20300
    ∧ ∃ k, prefetchQueue (fun _ => 0) (fun _ => false) (fun _ => 0)
        (fun _ => 0) 5
        = List.range' k
            (prefetchQueue (fun _ => 0) (fun _ => false) (fun _ => 0)
              (fun _ => 0) 5).length :=
  ⟨(prefetch_queue_bound_amended (fun _ => 0) (fun _ => false) (fun _ => 0)
      (fun _ => 0) (fun _ => Nat.zero_le _) (fun _ => Nat.zero_le _)).1 5,
    (prefetch_queue_bound_amended (fun _ => 0) (fun _ => false) (fun _ => 0)
      (fun _ => 0) (fun _ => Nat.zero_le _) (fun _ => Nat.zero_le _)).2 5⟩

/-- `std::multiset::insert` splits the list at the upper bound of the
inserted element's equal range. -/
theorem msInsert_decomp (e : SortedMergeElement) (l : List SortedMergeElement) :
    ∃ l1 l2, l = l1 ++ l2 ∧ msInsert e l = l1 ++ e :: l2 := by
  induction l with
  | nil => exact ⟨[], [], rfl, rfl⟩
  | cons x xs ih =>
    by_cases h : smeLT e x
    · exact ⟨[], x :: xs, rfl, by simp [msInsert, h]⟩
    · obtain ⟨l1, l2, h1, h2⟩ := ih
      exact ⟨x :: l1, l2, by simp [h1], by simp [msInsert, h, h2]⟩

/-- Inserting into the multiset grows it by one element. -/
theorem msInsert_length (e : SortedMergeElement) (l : List SortedMergeElement) :
    (msInsert e l).length = l.length + 1 := by
  obtain ⟨l1, l2, h1, h2⟩ := msInsert_decomp e l
  rw [h2, h1]
  simp
  omega

/-- The multiset after an insertion is a permutation of the element
consed onto the old contents. -/
theorem msInsert_perm (e : SortedMergeElement) (l : List SortedMergeElement) :
    (msInsert e l).Perm (e :: l) := by
  obtain ⟨l1, l2, h1, h2⟩ := msInsert_decomp e l
  rw [h2, h1]
  exact List.perm_middle

/-- Membership in the multiset after an insertion. -/
theorem msInsert_mem (x e : SortedMergeElement) (l : List SortedMergeElement) :
    x ∈ msInsert e l ↔ x = e ∨ x ∈ l :=
  ⟨fun h => by
      have := (msInsert_perm e l).mem_iff.mp h
      simpa using this,
    fun h => (msInsert_perm e l).mem_iff.mpr (by simpa using h)⟩

/-- Filtering after inserting the unique element satisfying the
predicate. -/
theorem msInsert_filter_pos (p : SortedMergeElement → Bool)
    (e : SortedMergeElement) (l : List SortedMergeElement)
    (hl : l.filter p = []) (he : p e = true) :
    (msInsert e l).filter p = [e] := by
  obtain ⟨l1, l2, h1, h2⟩ := msInsert_decomp e l
  have hsplit : l1.filter p = [] ∧ l2.filter p = [] := by
    have : l1.filter p ++ l2.filter p = [] := by
      rw [← List.filter_append, ← h1, hl]
    exact List.append_eq_nil.mp this
  rw [h2, List.filter_append, hsplit.1, List.filter_cons, if_pos he, hsplit.2]
  rfl

/-- Filtering is unchanged by inserting an element the predicate
rejects. -/
theorem msInsert_filter_neg (p : SortedMergeElement → Bool)
    (e : SortedMergeElement) (l : List SortedMergeElement)
    (he : p e = false) :
    (msInsert e l).filter p = l.filter p := by
  obtain ⟨l1, l2, h1, h2⟩ := msInsert_decomp e l
  rw [h2, h1, List.filter_append, List.filter_append, List.filter_cons,
    if_neg (by simp [he])]

/-- Reading back the entry just written to a reader slot. -/
theorem getD_set_self {β : Type} :
    ∀ (l : List (List β)) (i : Nat) (x : List β),
      i < l.length → (l.set i x).getD i [] = x := by
  intro l
  induction l with
  | nil => intro i x h; simp at h
  | cons a as ih =>
    intro i x h
    cases i with
    | zero => rfl
    | succ k =>
      simp only [List.set_cons_succ, List.getD_cons_succ]
      exact ih k x (by simpa using h)

/-- Writing one reader slot leaves the others unchanged. -/
theorem getD_set_ne {β : Type} :
    ∀ (l : List (List β)) (i j : Nat) (x : List β),
      i ≠ j → (l.set i x).getD j [] = l.getD j [] := by
  intro l
  induction l with
  | nil => intro i j x _; simp
  | cons a as ih =>
    intro i j x hij
    cases i with
    | zero =>
      cases j with
      | zero => exact absurd rfl hij
      | succ k => rfl
    | succ k =>
      cases j with
      | zero => rfl
      | succ k' =>
        simp only [List.set_cons_succ, List.getD_cons_succ]
        exact ih k k' x (fun h => hij (by rw [h]))

/-- A slot that reads back nonempty lies inside the list. -/
theorem getD_ne_nil_lt {β : Type} :
    ∀ (l : List (List β)) (i : Nat), l.getD i [] ≠ [] → i < l.length := by
  intro l
  induction l with
  | nil => intro i h; simp at h
  | cons a as ih =>
    intro i h
    cases i with
    | zero => simp
    | succ k =>
      simp only [List.getD_cons_succ] at h
      simpa using ih k h

/-- Popping one record from one reader drops the total record count by
one. -/
theorem sum_set_cons {β : Type} :
    ∀ (l : List (List β)) (i : Nat) (r : β) (rs : List β),
      l.getD i [] = r :: rs →
      ((l.set i rs).map List.length).sum + 1 = (l.map List.length).sum := by
  intro l
  induction l with
  | nil => intro i r rs h; simp at h
  | cons a as ih =>
    intro i r rs h
    cases i with
    | zero =>
      simp only [List.getD_cons_zero] at h
      subst h
      simp
      omega
    | succ k =>
      simp only [List.getD_cons_succ] at h
      simp only [List.set_cons_succ, List.map_cons, List.sum_cons]
      have := ih k r rs h
      omega

/-- If no reader holds any record, every slot reads back empty. -/
theorem sum_zero_getD {β : Type} :
    ∀ (l : List (List β)) (i : Nat),
      (l.map List.length).sum = 0 → l.getD i [] = [] := by
  intro l
  induction l with
  | nil => intro i _; simp
  | cons a as ih =>
    intro i h
    simp only [List.map_cons, List.sum_cons] at h
    cases i with
    | zero =>
      simp only [List.getD_cons_zero]
      exact List.length_eq_zero.mp (by omega)
    | succ k =>
      simp only [List.getD_cons_succ]
      exact ih k (by omega)

/-- Core invariant of the steady-state merge loop: for every source
`i`, the records of source `i` still pending — the (at most one)
element of the multiset drawn from it followed by its remaining file
contents — appear in the loop's output in that order, as a
subsequence.  Hypotheses: enough fuel for the loop measure, at most
one multiset element per source, and every nonempty source is
represented in the multiset. -/
theorem mergeLoop_source_sublist :
    ∀ (fuel : Nat) (pq : List SortedMergeElement)
      (sources : List (List SAlign)) (i : Nat),
      pq.length + ((sources.map List.length).sum) ≤ fuel →
      (pq.map SortedMergeElement.source).Nodup →
      (∀ j, (∃ e ∈ pq, e.source = j) ∨ sources.getD j [] = []) →
      List.Sublist
        (((pq.filter (fun e => e.source == i)).map SortedMergeElement.read)
          ++ sources.getD i [])
        (mergeLoop fuel pq sources) := by
  intro fuel
  induction fuel with
  | zero =>
    intro pq sources i hm hnd hinv
    have hpq : pq = [] := by
      cases pq with
      | nil => rfl
      | cons a b =>
        simp only [List.length_cons] at hm
        omega
    subst hpq
    have hsum : ((sources.map List.length).sum) = 0 := by
      simpa using hm
    rw [sum_zero_getD sources i hsum]
    simp [mergeLoop]
  | succ fuel ih =>
    intro pq sources i hm hnd hinv
    cases pq with
    | nil =>
      have hsrc : sources.getD i [] = [] := by
        rcases hinv i with ⟨e, he, _⟩ | h
        · simp at he
        · exact h
      rw [hsrc]
      simp [mergeLoop]
    | cons el rest =>
      cases hsrc : sources.getD el.source [] with
      | nil =>
        have hsrcg : sources[el.source]?.getD [] = [] := by
          rw [← List.getD_eq_getElem?_getD]
          exact hsrc
        have hml : mergeLoop (fuel + 1) (el :: rest) sources
            = el.read :: mergeLoop fuel rest sources := by
          simp [mergeLoop, hsrcg]
        rw [hml]
        have hm' : rest.length + ((sources.map List.length).sum) ≤ fuel := by
          simp only [List.length_cons] at hm
          omega
        have hnd' : (rest.map SortedMergeElement.source).Nodup := by
          simp only [List.map_cons, List.nodup_cons] at hnd
          exact hnd.2
        have hinv' : ∀ j, (∃ e ∈ rest, e.source = j) ∨ sources.getD j [] = [] := by
          intro j
          rcases hinv j with ⟨e, he, hej⟩ | h
          · rcases List.mem_cons.mp he with he' | hr
            · right
              rw [← hej, he']
              exact hsrc
            · exact Or.inl ⟨e, hr, hej⟩
          · exact Or.inr h
        have IH := ih rest sources i hm' hnd' hinv'
        by_cases hi : el.source = i
        · have hfe : (el :: rest).filter (fun e => e.source == i)
              = el :: rest.filter (fun e => e.source == i) := by
            simp [List.filter_cons, hi]
          have hgi : sources.getD i [] = [] := hi ▸ hsrc
          rw [hfe, hgi]
          rw [hgi, List.append_nil] at IH
          simpa using List.Sublist.cons₂ el.read IH
        · have hfe : (el :: rest).filter (fun e => e.source == i)
              = rest.filter (fun e => e.source == i) := by
            simp [List.filter_cons, hi]
          rw [hfe]
          exact List.Sublist.cons el.read IH
      | cons r rs =>
        have hsrcg : sources[el.source]?.getD [] = r :: rs := by
          rw [← List.getD_eq_getElem?_getD]
          exact hsrc
        have hml : mergeLoop (fuel + 1) (el :: rest) sources
            = el.read :: mergeLoop fuel (msInsert ⟨r, el.source⟩ rest)
                (sources.set el.source rs) := by
          simp [mergeLoop, hsrcg]
        rw [hml]
        have hlt : el.source < sources.length :=
          getD_ne_nil_lt sources el.source (by rw [hsrc]; simp)
        have hsum := sum_set_cons sources el.source r rs hsrc
        have hm' : (msInsert ⟨r, el.source⟩ rest).length
            + (((sources.set el.source rs).map List.length).sum) ≤ fuel := by
          rw [msInsert_length]
          simp only [List.length_cons] at hm
          omega
        have hnodup_src : el.source ∉ rest.map SortedMergeElement.source := by
          simp only [List.map_cons, List.nodup_cons] at hnd
          exact hnd.1
        have hnd' : ((msInsert ⟨r, el.source⟩ rest).map
            SortedMergeElement.source).Nodup := by
          have hp := (msInsert_perm ⟨r, el.source⟩ rest).map
            SortedMergeElement.source
          rw [hp.nodup_iff]
          simp only [List.map_cons, List.nodup_cons]
          refine ⟨hnodup_src, ?_⟩
          simp only [List.map_cons, List.nodup_cons] at hnd
          exact hnd.2
        have hinv' : ∀ j, (∃ e ∈ msInsert ⟨r, el.source⟩ rest, e.source = j)
            ∨ (sources.set el.source rs).getD j [] = [] := by
          intro j
          by_cases hj : j = el.source
          · subst hj
            exact Or.inl ⟨⟨r, el.source⟩, (msInsert_mem _ _ _).mpr (Or.inl rfl),
              rfl⟩
          · rcases hinv j with ⟨e, he, hej⟩ | h
            · rcases List.mem_cons.mp he with he' | hr
              · exact absurd (by rw [← hej, he']) hj
              · exact Or.inl ⟨e, (msInsert_mem _ _ _).mpr (Or.inr hr), hej⟩
            · right
              rw [getD_set_ne sources el.source j rs (fun hh => hj hh.symm)]
              exact h
        have IH := ih (msInsert ⟨r, el.source⟩ rest)
          (sources.set el.source rs) i hm' hnd' hinv'
        by_cases hi : el.source = i
        · subst hi
          have hnores : rest.filter (fun e => e.source == el.source) = [] := by
            rw [List.filter_eq_nil_iff]
            intro e he
            simp only [beq_iff_eq]
            intro hcontra
            exact hnodup_src (hcontra ▸ List.mem_map_of_mem
              SortedMergeElement.source he)
          have hfe : (el :: rest).filter (fun e => e.source == el.source)
              = [el] := by
            simp [List.filter_cons, hnores]
          have hfilter : ((msInsert ⟨r, el.source⟩ rest).filter
              (fun e => e.source == el.source)) = [⟨r, el.source⟩] :=
            msInsert_filter_pos _ _ _ hnores (by simp)
          rw [hfe, hsrc]
          rw [hfilter, getD_set_self sources el.source rs hlt] at IH
          simp only [List.map_cons, List.map_nil, List.singleton_append] at IH ⊢
          exact List.Sublist.cons₂ el.read IH
        · have hfe : (el :: rest).filter (fun e => e.source == i)
              = rest.filter (fun e => e.source == i) := by
            simp [List.filter_cons, hi]
          have hfilter : (msInsert ⟨r, el.source⟩ rest).filter
              (fun e => e.source == i) = rest.filter (fun e => e.source == i) :=
            msInsert_filter_neg _ _ _ (by simp [hi])
          have hgd : (sources.set el.source rs).getD i []
              = sources.getD i [] := getD_set_ne _ _ _ _ hi
          rw [hfe]
          rw [hfilter, hgd] at IH
          exact List.Sublist.cons el.read IH

/-- Seeding returns one remaining-contents slot per temp-file
reader. -/
theorem seedGo_sources_length :
    ∀ (runs : List (List SAlign)) (idx : Nat)
      (pq0 : List SortedMergeElement),
      ((seedGo runs idx pq0).2).length = runs.length := by
  intro runs
  induction runs with
  | nil => intro idx pq0; rfl
  | cons run rest ih =>
    intro idx pq0
    cases run with
    | nil =>
      rcases hsg : seedGo rest (idx + 1) pq0 with ⟨pq', rest'⟩
      have hih := ih (idx + 1) pq0
      rw [hsg] at hih
      simp [seedGo, hsg]
      exact hih
    | cons r rs =>
      rcases hsg : seedGo rest (idx + 1) (msInsert ⟨r, idx⟩ pq0) with ⟨pq', rest'⟩
      have hih := ih (idx + 1) (msInsert ⟨r, idx⟩ pq0)
      rw [hsg] at hih
      simp [seedGo, hsg]
      exact hih

/-- Elements the seeding loop adds to the multiset all carry source
indices at or above its starting index. -/
theorem seedGo_mem :
    ∀ (runs : List (List SAlign)) (idx : Nat)
      (pq0 : List SortedMergeElement) (e : SortedMergeElement),
      e ∈ (seedGo runs idx pq0).1 → e ∈ pq0 ∨ idx ≤ e.source := by
  intro runs
  induction runs with
  | nil => intro idx pq0 e he; exact Or.inl he
  | cons run rest ih =>
    intro idx pq0 e he
    cases run with
    | nil =>
      rcases hsg : seedGo rest (idx + 1) pq0 with ⟨pq', rest'⟩
      rw [show (seedGo ([] :: rest) idx pq0).1 = pq' by simp [seedGo, hsg]] at he
      have := ih (idx + 1) pq0 e (by rw [hsg]; exact he)
      rcases this with h | h
      · exact Or.inl h
      · exact Or.inr (by omega)
    | cons r rs =>
      rcases hsg : seedGo rest (idx + 1) (msInsert ⟨r, idx⟩ pq0) with ⟨pq', rest'⟩
      rw [show (seedGo ((r :: rs) :: rest) idx pq0).1 = pq'
        by simp [seedGo, hsg]] at he
      have := ih (idx + 1) (msInsert ⟨r, idx⟩ pq0) e (by rw [hsg]; exact he)
      rcases this with h | h
      · rcases (msInsert_mem _ _ _).mp h with h' | h'
        · subst h'
          exact Or.inr (Nat.le_refl idx)
        · exact Or.inl h'
      · exact Or.inr (by omega)

/-- Filtering the seeded multiset by a predicate that rejects every
index the seeding can add reduces to filtering the initial
multiset. -/
theorem seedGo_filter_low :
    ∀ (runs : List (List SAlign)) (idx : Nat)
      (pq0 : List SortedMergeElement) (p : SortedMergeElement → Bool),
      (∀ e, idx ≤ e.source → p e = false) →
      (seedGo runs idx pq0).1.filter p = pq0.filter p := by
  intro runs
  induction runs with
  | nil => intro idx pq0 p _; rfl
  | cons run rest ih =>
    intro idx pq0 p hp
    cases run with
    | nil =>
      rcases hsg : seedGo rest (idx + 1) pq0 with ⟨pq', rest'⟩
      have hih := ih (idx + 1) pq0 p (fun e he => hp e (by omega))
      rw [hsg] at hih
      simp [seedGo, hsg]
      exact hih
    | cons r rs =>
      rcases hsg : seedGo rest (idx + 1) (msInsert ⟨r, idx⟩ pq0) with ⟨pq', rest'⟩
      have hih := ih (idx + 1) (msInsert ⟨r, idx⟩ pq0) p
        (fun e he => hp e (by omega))
      rw [hsg] at hih
      have hins : (msInsert ⟨r, idx⟩ pq0).filter p = pq0.filter p :=
        msInsert_filter_neg p _ pq0 (hp ⟨r, idx⟩ (Nat.le_refl idx))
      simp [seedGo, hsg]
      rw [hih, hins]

/-- Seeding preserves one-element-per-source distinctness of the
multiset. -/
theorem seedGo_nodup :
    ∀ (runs : List (List SAlign)) (idx : Nat)
      (pq0 : List SortedMergeElement),
      (∀ e ∈ pq0, e.source < idx) →
      (pq0.map SortedMergeElement.source).Nodup →
      ((seedGo runs idx pq0).1.map SortedMergeElement.source).Nodup := by
  intro runs
  induction runs with
  | nil => intro idx pq0 _ hnd; exact hnd
  | cons run rest ih =>
    intro idx pq0 hlt hnd
    cases run with
    | nil =>
      rcases hsg : seedGo rest (idx + 1) pq0 with ⟨pq', rest'⟩
      rw [show (seedGo ([] :: rest) idx pq0).1 = pq' by simp [seedGo, hsg]]
      have := ih (idx + 1) pq0 (fun e he => by have := hlt e he; omega) hnd
      rwa [hsg] at this
    | cons r rs =>
      rcases hsg : seedGo rest (idx + 1) (msInsert ⟨r, idx⟩ pq0) with ⟨pq', rest'⟩
      rw [show (seedGo ((r :: rs) :: rest) idx pq0).1 = pq'
        by simp [seedGo, hsg]]
      have hlt' : ∀ e ∈ msInsert ⟨r, idx⟩ pq0, e.source < idx + 1 := by
        intro e he
        rcases (msInsert_mem _ _ _).mp he with h' | h'
        · rw [h']
          exact Nat.lt_succ_self idx
        · have := hlt e h'
          omega
      have hnd' : ((msInsert ⟨r, idx⟩ pq0).map
          SortedMergeElement.source).Nodup := by
        have hp := (msInsert_perm ⟨r, idx⟩ pq0).map SortedMergeElement.source
        rw [hp.nodup_iff]
        simp only [List.map_cons, List.nodup_cons]
        refine ⟨?_, hnd⟩
        intro hmem
        rcases List.mem_map.mp hmem with ⟨e, he, hes⟩
        have := hlt e he
        omega
      have := ih (idx + 1) (msInsert ⟨r, idx⟩ pq0) hlt' hnd'
      rwa [hsg] at this

/-- After seeding, a drained input run leaves no multiset element for
its index and an empty remaining-contents slot. -/
theorem seedGo_spec_nil :
    ∀ (runs : List (List SAlign)) (idx : Nat)
      (pq0 : List SortedMergeElement),
      (∀ e ∈ pq0, e.source < idx) →
      ∀ k, runs.getD k [] = [] →
        (seedGo runs idx pq0).1.filter (fun e => e.source == idx + k) = []
        ∧ (seedGo runs idx pq0).2.getD k [] = [] := by
  intro runs
  induction runs with
  | nil =>
    intro idx pq0 hp k _
    constructor
    · rw [List.filter_eq_nil_iff]
      intro e he
      simp only [beq_iff_eq]
      intro hc
      have := hp e he
      omega
    · rw [show (seedGo [] idx pq0).2 = ([] : List (List SAlign)) from rfl]
      cases k <;> rfl
  | cons run rest ih =>
    intro idx pq0 hp k hk
    cases run with
    | nil =>
      rcases hsg : seedGo rest (idx + 1) pq0 with ⟨pq', rest'⟩
      cases k with
      | zero =>
        constructor
        · rw [show (seedGo ([] :: rest) idx pq0).1 = pq'
            by simp [seedGo, hsg]]
          have hlow := seedGo_filter_low rest (idx + 1) pq0
            (fun e => e.source == idx + 0)
            (by intro e he; simp only [beq_eq_false_iff_ne]; omega)
          rw [hsg] at hlow
          rw [hlow, List.filter_eq_nil_iff]
          intro e he
          simp only [beq_iff_eq]
          intro hc
          have := hp e he
          omega
        · rw [show (seedGo ([] :: rest) idx pq0).2 = [] :: rest'
            by simp [seedGo, hsg]]
          rfl
      | succ k' =>
        have hk' : rest.getD k' [] = [] := hk
        have hp' : ∀ e ∈ pq0, e.source < idx + 1 := by
          intro e he
          have := hp e he
          omega
        have hih := ih (idx + 1) pq0 hp' k' hk'
        rw [hsg] at hih
        constructor
        · rw [show (seedGo ([] :: rest) idx pq0).1 = pq'
            by simp [seedGo, hsg]]
          rw [show idx + (k' + 1) = (idx + 1) + k' by omega]
          exact hih.1
        · rw [show (seedGo ([] :: rest) idx pq0).2 = [] :: rest'
            by simp [seedGo, hsg]]
          rw [List.getD_cons_succ]
          exact hih.2
    | cons r rs =>
      rcases hsg : seedGo rest (idx + 1) (msInsert ⟨r, idx⟩ pq0) with ⟨pq', rest'⟩
      cases k with
      | zero => simp at hk
      | succ k' =>
        have hk' : rest.getD k' [] = [] := hk
        have hp' : ∀ e ∈ msInsert ⟨r, idx⟩ pq0, e.source < idx + 1 := by
          intro e he
          rcases (msInsert_mem _ _ _).mp he with h' | h'
          · rw [h']
            exact Nat.lt_succ_self idx
          · have := hp e h'
            omega
        have hih := ih (idx + 1) (msInsert ⟨r, idx⟩ pq0) hp' k' hk'
        rw [hsg] at hih
        constructor
        · rw [show (seedGo ((r :: rs) :: rest) idx pq0).1 = pq'
            by simp [seedGo, hsg]]
          rw [show idx + (k' + 1) = (idx + 1) + k' by omega]
          exact hih.1
        · rw [show (seedGo ((r :: rs) :: rest) idx pq0).2 = rs :: rest'
            by simp [seedGo, hsg]]
          rw [List.getD_cons_succ]
          exact hih.2

/-- After seeding, a nonempty input run contributes exactly its head
(tagged with its reader index) to the multiset, and its tail as the
remaining contents of its slot. -/
theorem seedGo_spec_cons :
    ∀ (runs : List (List SAlign)) (idx : Nat)
      (pq0 : List SortedMergeElement),
      (∀ e ∈ pq0, e.source < idx) →
      ∀ k r rs, runs.getD k [] = r :: rs →
        (seedGo runs idx pq0).1.filter (fun e => e.source == idx + k)
          = [⟨r, idx + k⟩]
        ∧ (seedGo runs idx pq0).2.getD k [] = rs := by
  intro runs
  induction runs with
  | nil =>
    intro idx pq0 hp k r rs hk
    simp at hk
  | cons run rest ih =>
    intro idx pq0 hp k r rs hk
    cases run with
    | nil =>
      rcases hsg : seedGo rest (idx + 1) pq0 with ⟨pq', rest'⟩
      cases k with
      | zero => simp at hk
      | succ k' =>
        have hk' : rest.getD k' [] = r :: rs := hk
        have hp' : ∀ e ∈ pq0, e.source < idx + 1 := by
          intro e he
          have := hp e he
          omega
        have hih := ih (idx + 1) pq0 hp' k' r rs hk'
        rw [hsg] at hih
        constructor
        · rw [show (seedGo ([] :: rest) idx pq0).1 = pq'
            by simp [seedGo, hsg]]
          rw [show idx + (k' + 1) = (idx + 1) + k' by omega]
          exact hih.1
        · rw [show (seedGo ([] :: rest) idx pq0).2 = [] :: rest'
            by simp [seedGo, hsg]]
          rw [List.getD_cons_succ]
          exact hih.2
    | cons r0 rs0 =>
      rcases hsg : seedGo rest (idx + 1) (msInsert ⟨r0, idx⟩ pq0) with ⟨pq', rest'⟩
      cases k with
      | zero =>
        have hk0 : r0 :: rs0 = r :: rs := by simpa using hk
        injection hk0 with hr1 hr2
        subst hr1
        subst hr2
        constructor
        · rw [show (seedGo ((r0 :: rs0) :: rest) idx pq0).1 = pq'
            by simp [seedGo, hsg]]
          have hlow := seedGo_filter_low rest (idx + 1) (msInsert ⟨r0, idx⟩ pq0)
            (fun e => e.source == idx + 0)
            (by intro e he; simp only [beq_eq_false_iff_ne]; omega)
          rw [hsg] at hlow
          rw [hlow]
          have hbase : pq0.filter (fun e => e.source == idx + 0) = [] := by
            rw [List.filter_eq_nil_iff]
            intro e he
            simp only [beq_iff_eq]
            intro hc
            have := hp e he
            omega
          have := msInsert_filter_pos (fun e => e.source == idx + 0)
            ⟨r0, idx⟩ pq0 hbase (by simp)
          exact this
        · rw [show (seedGo ((r0 :: rs0) :: rest) idx pq0).2 = rs0 :: rest'
            by simp [seedGo, hsg]]
          rfl
      | succ k' =>
        have hk' : rest.getD k' [] = r :: rs := hk
        have hp' : ∀ e ∈ msInsert ⟨r0, idx⟩ pq0, e.source < idx + 1 := by
          intro e he
          rcases (msInsert_mem _ _ _).mp he with h' | h'
          · rw [h']
            exact Nat.lt_succ_self idx
          · have := hp e h'
            omega
        have hih := ih (idx + 1) (msInsert ⟨r0, idx⟩ pq0) hp' k' r rs hk'
        rw [hsg] at hih
        constructor
        · rw [show (seedGo ((r0 :: rs0) :: rest) idx pq0).1 = pq'
            by simp [seedGo, hsg]]
          rw [show idx + (k' + 1) = (idx + 1) + k' by omega]
          exact hih.1
        · rw [show (seedGo ((r0 :: rs0) :: rest) idx pq0).2 = rs0 :: rest'
            by simp [seedGo, hsg]]
          rw [List.getD_cons_succ]
          exact hih.2

/-- C1.  The claim is that the merge priority queue is keyed by the
active comparator, so that a sort configured by query name merges
name-sorted runs into nondecreasing `ByName` order.
`SortedMergeElement::operator<` (lines 55-59) constructs
`Sort::ByPosition` unconditionally — the configured sort order never
reaches the merge — so two runs that are each name-sorted merge into
position order, not name order, even though `ReadSorter::Run` stamps
the output header `SortOrder = queryname` (lines 72-74).  Evaluated at
the failing input: run 0 holds the single record "b" at position
(0,5), run 1 the single record "a" at position (0,10); the merge emits
"b" before "a". -/
theorem mergeSortedRuns_ignores_byName :
    sortedByBool byNameLT [⟨['b'], 0, 5, true⟩] = true
    ∧ sortedByBool byNameLT [⟨['a'], 0, 10, true⟩] = true
    ∧ MergeSortedRuns [[⟨['b'], 0, 5, true⟩], [⟨['a'], 0, 10, true⟩]]
        = [⟨['b'], 0, 5, true⟩, ⟨['a'], 0, 10, true⟩]
    ∧ sortedByBool byNameLT
        (MergeSortedRuns [[⟨['b'], 0, 5, true⟩], [⟨['a'], 0, 10, true⟩]])
        = false := by
  refine ⟨rfl, rfl, rfl, ?_⟩
  rfl

/-- C4, counterexample.  Two runs of two records each, all four with
equal keys under the active comparator (`byPositionLT` is false both
ways between any two of them).  Input order is a0, a1 (run 0) then
b0, b1 (run 1); a tie-break by upstream index would emit
a0, a1, b0, b1.  The multiset instead emits a0, b0, a1, b1: a record
refilled from a source is inserted after the equal-keyed records
already queued, so equal records of different runs interleave. -/
theorem merge_no_source_tie_break_counterexample :
    MergeSortedRuns
        [[⟨['a', '0'], 0, 100, true⟩, ⟨['a', '1'], 0, 100, true⟩],
          [⟨['b', '0'], 0, 100, true⟩, ⟨['b', '1'], 0, 100, true⟩]]
      = [⟨['a', '0'], 0, 100, true⟩, ⟨['b', '0'], 0, 100, true⟩,
          ⟨['a', '1'], 0, 100, true⟩, ⟨['b', '1'], 0, 100, true⟩]
    ∧ byPositionLT ⟨['a', '1'], 0, 100, true⟩ ⟨['b', '0'], 0, 100, true⟩ = false
    ∧ byPositionLT ⟨['b', '0'], 0, 100, true⟩ ⟨['a', '1'], 0, 100, true⟩ = false
    ∧ MergeSortedRuns
        [[⟨['a', '0'], 0, 100, true⟩, ⟨['a', '1'], 0, 100, true⟩],
          [⟨['b', '0'], 0, 100, true⟩, ⟨['b', '1'], 0, 100, true⟩]]
      ≠ [⟨['a', '0'], 0, 100, true⟩, ⟨['a', '1'], 0, 100, true⟩,
          ⟨['b', '0'], 0, 100, true⟩, ⟨['b', '1'], 0, 100, true⟩] := by
  refine ⟨rfl, rfl, rfl, ?_⟩
  decide

/-- C4, amended.  The merge breaks ties not by upstream index but by
multiset insertion order (a refilled record goes after all equal-keyed
records already queued), so equal-key records from different runs can
interleave and cross-run stability fails (see the counterexample).
What does hold is per-run stability: every run reappears in the merge
output as a subsequence, i.e. records drawn from the same temp file
keep their relative order. -/
theorem mergeSortedRuns_preserves_each_run_order :
    ∀ (runs : List (List SAlign)) (i : Nat),
      List.Sublist (runs.getD i []) (MergeSortedRuns runs) := by
  intro runs i
  rcases hsg : seedGo runs 0 [] with ⟨pq, sources⟩
  have hm : MergeSortedRuns runs
      = mergeLoop (pq.length + ((sources.map List.length).sum)) pq sources := by
    unfold MergeSortedRuns
    rw [hsg]
  rw [hm]
  have hp0 : ∀ e ∈ ([] : List SortedMergeElement), e.source < 0 := by
    intro e he
    simp at he
  have hnd : (pq.map SortedMergeElement.source).Nodup := by
    have := seedGo_nodup runs 0 [] hp0 (by simp)
    rwa [hsg] at this
  have hinv : ∀ j, (∃ e ∈ pq, e.source = j) ∨ sources.getD j [] = [] := by
    intro j
    cases hgd : runs.getD j [] with
    | nil =>
      right
      have := (seedGo_spec_nil runs 0 [] hp0 j hgd).2
      rwa [hsg] at this
    | cons r rs =>
      left
      have hf := (seedGo_spec_cons runs 0 [] hp0 j r rs hgd).1
      rw [hsg] at hf
      have hmem : (⟨r, 0 + j⟩ : SortedMergeElement)
          ∈ pq.filter (fun e => e.source == 0 + j) := by
        rw [hf]
        simp
      exact ⟨⟨r, 0 + j⟩, List.mem_of_mem_filter hmem, by simp⟩
  cases hgd : runs.getD i [] with
  | nil => exact List.nil_sublist _
  | cons r rs =>
    have hspec := seedGo_spec_cons runs 0 [] hp0 i r rs hgd
    rw [hsg] at hspec
    have hspec1 : List.filter (fun e => e.source == 0 + i) pq
        = [⟨r, 0 + i⟩] := hspec.1
    have hspec2 : sources.getD i [] = rs := hspec.2
    have hsub := mergeLoop_source_sublist
      (pq.length + ((sources.map List.length).sum)) pq sources (0 + i)
      (Nat.le_refl _) hnd hinv
    rw [hspec1] at hsub
    simp only [Nat.zero_add] at hsub
    rw [hspec2] at hsub
    simpa using hsub

/-- Witness for C10 at a concrete pair: the buffered forward read and
the arriving reverse read are written as the `/1`-`/2` halves, the
reverse half reverse-complemented. -/
theorem fastqWriter_writes_each_alignment_exactly_once_witness :
    FastqClose (fastqProcessAll fastqInitState
        [⟨"r1", ['A', 'C'], ['I', 'J'], false⟩,
          ⟨"r1", ['G', 'T'], ['#', '%'], true⟩])
      = { potential_pairs := [],
          fwdOut := [("r1" ++ "/1", ['A', 'C'], ['I', 'J'])],
          revOut := [("r1" ++ "/2", compliment ['G', 'T'].reverse,
                      ['#', '%'].reverse)],
          orphanOut := [] } :=
  fastqWriter_writes_each_alignment_exactly_once.2
    ⟨"r1", ['A', 'C'], ['I', 'J'], false⟩
    ⟨"r1", ['G', 'T'], ['#', '%'], true⟩ rfl rfl

